import Mathlib

/-
Verification development for the badger `Stream` bulk-export pipeline
(vendor/github.com/dgraph-io/badger/stream.go).

The Go source is shallowly embedded as executable Lean functions:
byte strings become `List Nat`, the storage cursor becomes a sorted list
of versioned entries together with a seek-by-dropWhile (the cursor itself
is an external collaborator of the pipeline and is modelled from the
spec), channels become explicit lists, and the worker loop of
`produceKVs` becomes a fuel-indexed structural recursion whose fuel is a
proven-sufficient loop measure, so that every definition computes.
-/

namespace BadgerStream

/-- Keys and values are byte strings, embedded as lists of naturals. -/
abbrev Key := List Nat

/-- Go `bytes.Compare`: lexicographic comparison of byte strings, a proper
byte-string cut short is smaller. -/
def bcmp : Key → Key → Ordering
  | [], [] => Ordering.eq
  | [], _ :: _ => Ordering.lt
  | _ :: _, [] => Ordering.gt
  | a :: as, b :: bs =>
    if a < b then Ordering.lt
    else if b < a then Ordering.gt
    else bcmp as bs

/-- Modelled from the spec: one (key, version, value, user-metadata,
expiry, deletion-flag, discard-earlier-versions-flag) tuple as surfaced by
the storage cursor (`Item` in badger, whose source is outside this
repository's vendored file). `deletedOrExpired` is `Item.IsDeletedOrExpired`
and `discardEarlier` is `Item.DiscardEarlierVersions`, both kept abstract
as fields. -/
structure Item where
  key : Key
  version : Nat
  value : List Nat
  userMeta : Nat
  expiresAt : Nat
  deletedOrExpired : Bool
  discardEarlier : Bool
deriving DecidableEq

/-- One output record (`pb.KV`): key, value, user-metadata byte string,
version and expiry, exactly the fields filled in by `Stream.ToList`. -/
structure KV where
  key : Key
  value : List Nat
  userMeta : List Nat
  version : Nat
  expiresAt : Nat
deriving DecidableEq

/-- The record `Stream.ToList` builds from a cursor item: defensive copies
of key and value, the one-byte user metadata, version and expiry. -/
def mkKV (it : Item) : KV :=
  ⟨it.key, it.value, [it.userMeta], it.version, it.expiresAt⟩

/-- Modelled from the spec: the serialized size of one record
(`pb.KV.Size`, protobuf code outside the vendored file); byte content of
key, value and user metadata. -/
def kvSize (kv : KV) : Nat :=
  kv.key.length + kv.value.length + kv.userMeta.length

/-- Modelled from the spec: serialized size of a record list
(`pb.KVList.Size`), the sum of its records' sizes. -/
def listSize (l : List KV) : Nat :=
  (l.map kvSize).sum

/-- Source constant `pageSize = 4 << 20`. -/
def pageSize : Nat := 4 <<< 20

/-- `Stream.ToList`, the default `KeyToList` policy, applied to the items
still ahead of the cursor (the cursor stands on the key's highest
version).  Returns the emitted records together with the number of
`itr.Next()` calls performed, i.e. how far the shared cursor advanced:
the `break`s of the source leave the cursor on the breaking entry.
`nvk` is `st.db.opt.NumVersionsToKeep`. -/
def toList (nvk : Nat) (key : Key) : List Item → List KV × Nat
  | [] => ([], 0)
  | it :: rest =>
    if it.deletedOrExpired then ([], 0)
    else if ¬ it.key = key then ([], 0)
    else
      if nvk = 1 then ([mkKV it], 0)
      else if it.discardEarlier then ([mkKV it], 0)
      else
        let r := toList nvk key rest
        (mkKV it :: r.1, r.2 + 1)

/-- `keyRange` of the source: half-open `[left, right)`; `right = []`
means "to the end of the keyspace". -/
structure KeyRange where
  left : Key
  right : Key
deriving DecidableEq

/-- The loop body of `Stream.produceRanges`: starting from `start`, each
split point closes the current range and opens the next; one final
open-ended range is always emitted, then the channel is closed. -/
def produceRangesFrom (start : Key) : List Key → List KeyRange
  | [] => [⟨start, []⟩]
  | s :: ss => ⟨start, s⟩ :: produceRangesFrom s ss

/-- `Stream.produceRanges`, as the list of ranges pushed onto `rangeCh`
(in push order), for a given target byte-string restriction `pfx`
(`st.Prefix`) and the split points returned by `db.KeySplits`. -/
def produceRanges (pfx : Key) (splits : List Key) : List KeyRange :=
  produceRangesFrom pfx splits

/-- The end-of-range test of `produceKVs`:
`len(kr.right) > 0 && bytes.Compare(item.Key(), kr.right) >= 0`. -/
def atRangeEnd (right k : Key) : Bool :=
  !right.isEmpty && !(decide (bcmp k right = Ordering.lt))

/-- Membership of a key in a half-open `KeyRange` (`right = []` is
open-ended). -/
def inRangeB (kr : KeyRange) (k : Key) : Bool :=
  !(decide (bcmp k kr.left = Ordering.lt)) && !(atRangeEnd kr.right k)

/-- The key-selection test of `produceKVs`:
`st.ChooseKey != nil && !st.ChooseKey(item)` — a nil predicate accepts
every key. -/
def chooseRejects (choose : Option (Item → Bool)) (it : Item) : Bool :=
  match choose with
  | some f => !f it
  | none => false

/-- Result of one worker-loop run over a range: the pages pushed onto
`kvChan` by the in-loop size check (`thPages`, in push order), the final
`outList` accumulator, the final value of the worker's `size` counter and,
as ghost data, the keys at which `KeyToList` was invoked, in order. -/
structure IterOut where
  thPages : List (List KV)
  outList : List KV
  sz : Nat
  keys : List Key
deriving DecidableEq

/-- Termination budget of the scan loop: every iteration either consumes
an item or switches the head item's key to the current `prevKey`, so this
quantity strictly decreases. -/
def loopMeasure (prevKey : Key) (rem : List Item) : Nat :=
  2 * rem.length +
    (match rem with
     | [] => 0
     | it :: _ => if it.key = prevKey then 0 else 1)

/-- The `for itr.Seek(kr.left); itr.Valid();` loop of the `iterate`
closure inside `Stream.produceKVs`, fuel-indexed (`loopMeasure` fuel is
always sufficient, see `iterLoopF_fuel_irrel`).  `ktl` is the
key-expansion policy `st.KeyToList` (returning records plus cursor
advance), `choose` is `st.ChooseKey` (`none` when left nil), `right` the
range's right bound, `rem` the cursor suffix after the seek.  Branches in
source order: defensive same-key skip, end-of-range break, `ChooseKey`
rejection (a bare `continue`), then `KeyToList` with the empty-list guard,
the append to `outList`, and the `size >= pageSize` page push. -/
def iterLoopF (ktl : Key → List Item → List KV × Nat)
    (choose : Option (Item → Bool)) (right : Key) :
    Nat → Key → List KV → Nat → List Item → IterOut
  | 0, _, outList, size, _ => ⟨[], outList, size, []⟩
  | _ + 1, _, outList, size, [] => ⟨[], outList, size, []⟩
  | fuel + 1, prevKey, outList, size, it :: rest =>
    if it.key = prevKey then
      iterLoopF ktl choose right fuel prevKey outList size rest
    else if atRangeEnd right it.key then
      ⟨[], outList, size, []⟩
    else if chooseRejects choose it then
      iterLoopF ktl choose right fuel it.key outList size (it :: rest)
    else
      let kvs := (ktl it.key (it :: rest)).1
      let adv := (ktl it.key (it :: rest)).2
      if kvs = [] then
        let o := iterLoopF ktl choose right fuel it.key outList size
          ((it :: rest).drop adv)
        ⟨o.thPages, o.outList, o.sz, it.key :: o.keys⟩
      else if pageSize ≤ size + listSize kvs then
        let o := iterLoopF ktl choose right fuel it.key [] 0
          ((it :: rest).drop adv)
        ⟨(outList ++ kvs) :: o.thPages, o.outList, o.sz, it.key :: o.keys⟩
      else
        let o := iterLoopF ktl choose right fuel it.key (outList ++ kvs)
          (size + listSize kvs) ((it :: rest).drop adv)
        ⟨o.thPages, o.outList, o.sz, it.key :: o.keys⟩

/-- Modelled from the spec: `itr.Seek(kr.left)` on a cursor whose visible
entries are the sorted list `entries` — position on the first entry whose
key is not below the target. -/
def seekTo (l : Key) (entries : List Item) : List Item :=
  entries.dropWhile (fun it => decide (bcmp it.key l = Ordering.lt))

/-- One call of the `iterate` closure of `Stream.produceKVs` on range
`kr`, starting with the worker's current `size` counter `size0`:
seek to the left bound, run the loop with an empty `outList` and
`prevKey`. -/
def iterateR (ktl : Key → List Item → List KV × Nat)
    (choose : Option (Item → Bool)) (entries : List Item) (kr : KeyRange)
    (size0 : Nat) : IterOut :=
  iterLoopF ktl choose kr.right (loopMeasure [] (seekTo kr.left entries))
    [] [] size0 (seekTo kr.left entries)

/-- All pages one range call pushes onto `kvChan`: in-loop threshold pages
followed by the trailing `outList` flush, which happens only when
non-empty (`if len(outList.Kv) > 0`). -/
def rangePages (o : IterOut) : List (List KV) :=
  o.thPages ++ (if o.outList.isEmpty then [] else [o.outList])

/-- Result of a worker draining the whole range list: pages pushed per
range, ghost invocation keys per range, and the final `size` counter. -/
structure RunOut where
  pagesPerRange : List (List (List KV))
  keysPerRange : List (List Key)
  szEnd : Nat
deriving DecidableEq

/-- The `for { select ... case kr := <-st.rangeCh ... }` driver of
`Stream.produceKVs` unrolled over the list of ranges carried by
`rangeCh`, threading the worker-scoped `size` counter (declared once per
`produceKVs` call, reset only by the in-loop page push, never at range
end). -/
def runRanges (ktl : Key → List Item → List KV × Nat)
    (choose : Option (Item → Bool)) (entries : List Item) :
    List KeyRange → Nat → RunOut
  | [], s => ⟨[], [], s⟩
  | kr :: rest, s =>
    let o := iterateR ktl choose entries kr s
    let r := runRanges ktl choose entries rest o.sz
    ⟨rangePages o :: r.pagesPerRange, o.keys :: r.keysPerRange, r.szEnd⟩

/-- All records a run delivers, across all pages of all ranges, in range
order. -/
def runRecords (ktl : Key → List Item → List KV × Nat)
    (choose : Option (Item → Bool)) (entries : List Item)
    (ranges : List KeyRange) (s0 : Nat) : List KV :=
  ((runRanges ktl choose entries ranges s0).pagesPerRange.flatten).flatten

/-- Ghost: the distinct keys of a cursor list, by consecutive
de-duplication against a previous key, mirroring `prevKey` of the scan
loop; with `prev = []` and non-empty keys this is exactly the list of
distinct keys present, in order. -/
def distinctFrom (prev : Key) : List Item → List Key
  | [] => []
  | it :: rest =>
    if it.key = prev then distinctFrom prev rest
    else it.key :: distinctFrom it.key rest

/-- Error kinds of the pipeline (spec section 7); `panic` of the
constructors is modelled separately via `Except String`. -/
inductive StreamErr
  | cancelled
  | expansionFailure
  | sinkFailure
deriving DecidableEq

/-- Modelled from the spec: the visible entries of a cursor opened with
`iterOpts.Prefix = pfx` — the snapshot restricted to keys carrying the
byte-string restriction. -/
def visibleEntries (pfx : Key) (snapshot : List Item) : List Item :=
  snapshot.filter (fun it => pfx.isPrefixOf it.key)

/-- `Stream.produceRanges` with its cancellation argument: the source
receives `ctx` but never consults it, so the ranges are produced — and
all pushes performed — no matter whether the token has fired, and no
cancellation error is ever returned by the splitter. -/
def produceRangesC (cancelled : Bool) (pfx : Key) (splits : List Key) :
    List KeyRange × Option StreamErr :=
  (produceRangesFrom pfx splits, none)

/-- `Stream.produceKVs` top level: its `select` races `rangeCh` against
`ctx.Done()`.  With the token fired and no range yet processed (the
schedule the claims quantify over), the `ctx.Done()` branch is taken and
the worker aborts with `ctx.Err()` before touching a range; otherwise the
ranges are drained in order. -/
def produceKVsC (cancelled : Bool) (ktl : Key → List Item → List KV × Nat)
    (choose : Option (Item → Bool)) (entries : List Item)
    (ranges : List KeyRange) (s0 : Nat) : Except StreamErr RunOut :=
  if cancelled then Except.error StreamErr.cancelled
  else Except.ok (runRanges ktl choose entries ranges s0)

/-- `Stream.streamKVs`: its `select` observes `ctx.Done()` while waiting
on `kvChan`; with the token fired it returns `ctx.Err()` and hands
nothing to `Send`.  Otherwise it consumes the page stream; the batches
delivered to `Send` are returned (modelled on the no-coalescing schedule,
one batch per page — coalescing is a scheduling-dependent concatenation
of adjacent pages and is quantified over separately where a claim needs
it). -/
def streamKVsC (cancelled : Bool) (pages : List (List KV)) :
    Option StreamErr × List (List KV) :=
  if cancelled then (some StreamErr.cancelled, [])
  else (none, pages)

/-- The single-slot best-effort error cell: `errCh` has capacity one and
workers send with `select { case errCh <- err: default: }` — the first
error is stored, any later one is dropped without blocking. -/
def tryRecord (slot : Option StreamErr) (e : StreamErr) : Option StreamErr :=
  match slot with
  | none => some e
  | some e0 => some e0

/-- The error-slot contents after the workers' failures arrive in the
given order. -/
def recordAll (errs : List StreamErr) : Option StreamErr :=
  errs.foldl tryRecord none

/-- The error returned by `Stream.Orchestrate`: after all workers have
returned, the slot is checked first and its error returned; only when it
is empty is the drainer's result awaited and propagated. -/
def orchestrateErr (workerErrs : List StreamErr)
    (drainErr : Option StreamErr) : Option StreamErr :=
  match recordAll workerErrs with
  | some e => some e
  | none => drainErr

/-- `Stream.Orchestrate` for a run with the default expansion policy:
wire the range channel from `produceRanges`, run the workers
(`produceKVs`, worker `size` counters start at 0), then the drainer
(`streamKVs`).  Returns the error of the run together with the batches
handed to `Send`.  On a worker error the drainer's batches are not
awaited (spec section 9's post-error race); under a from-the-start
cancellation no page exists, so no batch is delivered. -/
def orchestrate (cancelled : Bool)
    (ktl : Key → List Item → List KV × Nat)
    (choose : Option (Item → Bool)) (pfx : Key) (splits : List Key)
    (snapshot : List Item) : Option StreamErr × List (List KV) :=
  let ranges := (produceRangesC cancelled pfx splits).1
  match produceKVsC cancelled ktl choose (visibleEntries pfx snapshot)
      ranges 0 with
  | Except.error e => (some e, [])
  | Except.ok out => streamKVsC cancelled out.pagesPerRange.flatten

/-- Badger `Options`, restricted to the fields `stream.go` reads. -/
structure Options where
  managedTxns : Bool
  NumVersionsToKeep : Nat
deriving DecidableEq

/-- The store handle, carrying its options. -/
structure DB where
  opt : Options
deriving DecidableEq

/-- The configuration part of a `Stream` value (the policy function
fields default to nil and are passed separately to the run functions
above). -/
structure Stream where
  pfx : Key
  readTs : Nat
  db : DB
deriving DecidableEq

/-- `DB.NewStream`: panics (modelled as `Except.error`) when the store is
configured for managed (snapshot-pinned) transactions; the check runs in
the constructor itself, before any pipeline task exists. -/
def NewStream (db : DB) : Except String Stream :=
  if db.opt.managedTxns then
    Except.error "This API can not be called in managed mode."
  else Except.ok ⟨[], 0, db⟩

/-- `DB.NewStreamAt`: the snapshot-pinned variant; panics (modelled as
`Except.error`) unless the store is configured for managed transactions;
also a pure constructor-time check. -/
def NewStreamAt (db : DB) (readTs : Nat) : Except String Stream :=
  if !db.opt.managedTxns then
    Except.error "This API can only be called in managed mode."
  else Except.ok ⟨[], readTs, db⟩

/-- Chained boundary predicate for range lists: each range's right bound
is the next range's left bound. -/
def chainedRanges : List KeyRange → Prop
  | [] => True
  | [_] => True
  | a :: b :: rest => a.right = b.left ∧ chainedRanges (b :: rest)

/-- Byte-string chain `a₀ ≤ a₁ ≤ …` in `bcmp` order. -/
def chainLe : List Key → Prop
  | [] => True
  | [_] => True
  | a :: b :: rest => bcmp a b ≠ Ordering.gt ∧ chainLe (b :: rest)

/-- Size conformance of the in-loop page pushes of one range: the first
page closes when the carried-in worker counter plus its records' sizes
reaches `pageSize`; every later page starts from a reset counter. -/
def pagesSizeOk (carry : Nat) : List (List KV) → Prop
  | [] => True
  | p :: ps => pageSize ≤ carry + listSize p ∧ pagesSizeOk 0 ps

/-- Size conformance of a whole run: each range's threshold pages conform
with the counter carried into that range, and the counter left by the
range (not reset by the trailing flush) is carried into the next. -/
def rangesSizeOk (ktl : Key → List Item → List KV × Nat)
    (choose : Option (Item → Bool)) (entries : List Item) :
    List KeyRange → Nat → Prop
  | [], _ => True
  | kr :: rest, s =>
    pagesSizeOk s (iterateR ktl choose entries kr s).thPages ∧
    rangesSizeOk ktl choose entries rest (iterateR ktl choose entries kr s).sz

/-- Keys sorted non-decreasingly in `bcmp` order, as the cursor delivers
them. -/
@[reducible] def keysSorted (l : List Item) : Prop :=
  l.Pairwise (fun a b => bcmp a.key b.key ≠ Ordering.gt)

/-! ### Order facts about `bcmp` -/

theorem bcmp_self (a : Key) : bcmp a a = Ordering.eq := by
  induction a with
  | nil => rfl
  | cons x xs ih => simp [bcmp, ih]

theorem bcmp_eq_iff (a b : Key) : bcmp a b = Ordering.eq ↔ a = b := by
  induction a generalizing b with
  | nil => cases b <;> simp [bcmp]
  | cons x xs ih =>
    cases b with
    | nil => simp [bcmp]
    | cons y ys =>
      by_cases hxy : x < y
      · have hne : x ≠ y := Nat.ne_of_lt hxy
        simp [bcmp, hxy, hne]
      · by_cases hyx : y < x
        · have hne : x ≠ y := (Nat.ne_of_lt hyx).symm
          simp [bcmp, hxy, hyx, hne]
        · have hxy' : x = y := Nat.le_antisymm (Nat.not_lt.mp hyx) (Nat.not_lt.mp hxy)
          simp [bcmp, hxy, hyx, hxy', ih]

theorem bcmp_lt_iff_gt (a b : Key) : bcmp a b = Ordering.lt ↔ bcmp b a = Ordering.gt := by
  induction a generalizing b with
  | nil => cases b <;> simp [bcmp]
  | cons x xs ih =>
    cases b with
    | nil => simp [bcmp]
    | cons y ys =>
      by_cases hxy : x < y
      · have hyx : ¬ y < x := by omega
        simp [bcmp, hxy, hyx]
      · by_cases hyx : y < x
        · simp [bcmp, hxy, hyx]
        · simp [bcmp, hxy, hyx, ih]

theorem bcmp_le_lt_trans {a b c : Key} (hab : bcmp a b ≠ Ordering.gt)
    (hbc : bcmp b c = Ordering.lt) : bcmp a c = Ordering.lt := by
  induction a generalizing b c with
  | nil =>
    cases c with
    | nil =>
      cases b with
      | nil => exact absurd hbc (by simp [bcmp])
      | cons y ys => exact absurd hbc (by simp [bcmp])
    | cons z zs => rfl
  | cons x xs ih =>
    cases b with
    | nil => exact absurd rfl hab
    | cons y ys =>
      cases c with
      | nil => exact absurd hbc (by simp [bcmp])
      | cons z zs =>
        by_cases hxy : x < y
        · -- x < y and y ≤ z gives x < z
          by_cases hyz : y < z
          · have : x < z := by omega
            simp [bcmp, this]
          · by_cases hzy : z < y
            · exact absurd hbc (by simp [bcmp, hyz, hzy])
            · have : x < z := by omega
              simp [bcmp, this]
        · by_cases hyx : y < x
          · exact absurd (by simp [bcmp, hxy, hyx] : bcmp (x :: xs) (y :: ys) = Ordering.gt) hab
          · -- x = y
            have hxy' : x = y := by omega
            subst hxy'
            by_cases hxz : x < z
            · simp [bcmp, hxz]
            · by_cases hzx : z < x
              · exact absurd hbc (by simp [bcmp, hxz, hzx])
              · have htl : bcmp xs ys ≠ Ordering.gt := by
                  intro h
                  exact hab (by simp [bcmp, hxy, hyx, h])
                have htl2 : bcmp ys zs = Ordering.lt := by
                  have := hbc
                  simpa [bcmp, hxz, hzx] using this
                simp [bcmp, hxz, hzx, ih htl htl2]

theorem bcmp_lt_trans {a b c : Key} (hab : bcmp a b = Ordering.lt)
    (hbc : bcmp b c = Ordering.lt) : bcmp a c = Ordering.lt :=
  bcmp_le_lt_trans (by simp [hab]) hbc

theorem bcmp_nil_right (a : Key) : bcmp a [] ≠ Ordering.lt := by
  cases a <;> simp [bcmp]

theorem isPrefixOf_le {p k : Key} (h : p.isPrefixOf k = true) :
    bcmp p k ≠ Ordering.gt := by
  induction p generalizing k with
  | nil => cases k <;> simp [bcmp]
  | cons x xs ih =>
    cases k with
    | nil => simp [List.isPrefixOf] at h
    | cons y ys =>
      simp only [List.isPrefixOf, Bool.and_eq_true, beq_iff_eq] at h
      obtain ⟨hxy, htl⟩ := h
      subst hxy
      simpa [bcmp] using ih htl

theorem isPrefixOf_not_lt {p k : Key} (h : p.isPrefixOf k = true) :
    bcmp k p ≠ Ordering.lt := by
  intro hlt
  exact isPrefixOf_le h ((bcmp_lt_iff_gt k p).mp hlt)

/-! ### Facts about the default expansion policy `toList` -/

theorem toList_take_key (nvk : Nat) (k : Key) :
    ∀ l : List Item, ∀ it ∈ l.take (toList nvk k l).2, it.key = k := by
  intro l
  induction l with
  | nil => simp
  | cons it rest ih =>
    intro x hx
    by_cases hdel : it.deletedOrExpired
    · simp [toList, hdel] at hx
    · by_cases hkey : it.key = k
      · by_cases hnvk : nvk = 1
        · simp [toList, hdel, hkey, hnvk] at hx
        · by_cases hdis : it.discardEarlier
          · simp [toList, hdel, hkey, hnvk, hdis] at hx
          · simp only [toList, hdel, hkey, hnvk, hdis, if_neg, if_pos,
              Bool.false_eq_true, not_true_eq_false, not_false_eq_true,
              ite_false, ite_true] at hx
            simp only [List.take_succ_cons, List.mem_cons] at hx
            rcases hx with rfl | hx
            · exact hkey
            · exact ih x hx
      · simp [toList, hdel, hkey] at hx

theorem toList_kv_keys (nvk : Nat) (k : Key) :
    ∀ l : List Item, ∀ kv ∈ (toList nvk k l).1, kv.key = k := by
  intro l
  induction l with
  | nil => simp [toList]
  | cons it rest ih =>
    intro kv hkv
    by_cases hdel : it.deletedOrExpired
    · simp [toList, hdel] at hkv
    · by_cases hkey : it.key = k
      · by_cases hnvk : nvk = 1
        · simp [toList, hdel, hkey, hnvk] at hkv
          simp [hkv, mkKV, hkey]
        · by_cases hdis : it.discardEarlier
          · simp [toList, hdel, hkey, hnvk, hdis] at hkv
            simp [hkv, mkKV, hkey]
          · simp [toList, hdel, hkey, hnvk, hdis] at hkv
            rcases hkv with rfl | hkv
            · simp [mkKV, hkey]
            · exact ih kv hkv
      · simp [toList, hdel, hkey] at hkv

theorem toList_take_map (nvk : Nat) (k : Key) :
    ∀ l : List Item,
      (toList nvk k l).1 = (l.take (toList nvk k l).1.length).map mkKV := by
  intro l
  induction l with
  | nil => simp [toList]
  | cons it rest ih =>
    by_cases hdel : it.deletedOrExpired
    · simp [toList, hdel]
    · by_cases hkey : it.key = k
      · by_cases hnvk : nvk = 1
        · simp [toList, hdel, hkey, hnvk]
        · by_cases hdis : it.discardEarlier
          · simp [toList, hdel, hkey, hnvk, hdis]
          · simp only [toList, hdel, hkey, hnvk, hdis, Bool.false_eq_true,
              not_true_eq_false, not_false_eq_true, if_neg, if_pos,
              ite_false, ite_true]
            simp only [List.length_cons, List.take_succ_cons, List.map_cons,
              List.cons.injEq, true_and]
            exact ih
      · simp [toList, hdel, hkey]

/-! ### The loop measure bounds the scan loop -/

theorem loopMeasure_le (p : Key) (l : List Item) :
    loopMeasure p l ≤ 2 * l.length + 1 := by
  cases l with
  | nil => simp [loopMeasure]
  | cons it rest =>
    simp only [loopMeasure]
    split <;> omega

theorem loopMeasure_ge (p : Key) (l : List Item) :
    2 * l.length ≤ loopMeasure p l := by
  cases l with
  | nil => simp [loopMeasure]
  | cons it rest =>
    simp only [loopMeasure]
    split <;> omega

theorem loopMeasure_tail {prevKey : Key} {it : Item} (rest : List Item)
    (h : it.key = prevKey) :
    loopMeasure prevKey rest < loopMeasure prevKey (it :: rest) := by
  have h1 := loopMeasure_le prevKey rest
  have h2 : loopMeasure prevKey (it :: rest) = 2 * (it :: rest).length := by
    simp [loopMeasure, h]
  simp only [List.length_cons] at h2
  omega

theorem loopMeasure_switch {prevKey : Key} {it : Item} (rest : List Item)
    (h : ¬ it.key = prevKey) :
    loopMeasure it.key (it :: rest) < loopMeasure prevKey (it :: rest) := by
  simp [loopMeasure, h]

theorem loopMeasure_drop {prevKey : Key} {it : Item} (rest : List Item)
    (adv : Nat) (h : ¬ it.key = prevKey) :
    loopMeasure it.key ((it :: rest).drop adv) < loopMeasure prevKey (it :: rest) := by
  cases adv with
  | zero => simpa using loopMeasure_switch rest h
  | succ n =>
    have hdrop : (it :: rest).drop (n + 1) = rest.drop n := by simp
    have h1 := loopMeasure_le it.key (rest.drop n)
    have h2 : (rest.drop n).length ≤ rest.length := by
      simp [List.length_drop]
    have h3 : loopMeasure prevKey (it :: rest) = 2 * (it :: rest).length + 1 := by
      simp [loopMeasure, h]
    rw [hdrop]
    simp only [List.length_cons] at h3
    omega

/-- The scan loop's result does not depend on the fuel, as long as the
fuel covers the loop measure: the wrapper's budget is canonical. -/
theorem iterLoopF_fuel_irrel (ktl : Key → List Item → List KV × Nat)
    (choose : Option (Item → Bool)) (right : Key) :
    ∀ fuel fuel' prevKey outList size rem,
      loopMeasure prevKey rem ≤ fuel → loopMeasure prevKey rem ≤ fuel' →
      iterLoopF ktl choose right fuel prevKey outList size rem
        = iterLoopF ktl choose right fuel' prevKey outList size rem := by
  intro fuel
  induction fuel with
  | zero =>
    intro fuel' prevKey outList size rem hf hf'
    have hnil : rem = [] := by
      have := loopMeasure_ge prevKey rem
      cases rem with
      | nil => rfl
      | cons it rest => simp at this; omega
    subst hnil
    cases fuel' <;> rfl
  | succ n ih =>
    intro fuel' prevKey outList size rem hf hf'
    cases rem with
    | nil => cases fuel' <;> rfl
    | cons it rest =>
      cases fuel' with
      | zero =>
        exfalso
        have := loopMeasure_ge prevKey (it :: rest)
        simp at this
        omega
      | succ m =>
        by_cases h1 : it.key = prevKey
        · have hm := loopMeasure_tail rest h1
          simp only [iterLoopF, if_pos h1]
          exact ih m prevKey outList size rest (by omega) (by omega)
        · by_cases h2 : atRangeEnd right it.key
          · simp only [iterLoopF, if_neg h1, if_pos h2]
          · by_cases h3 : chooseRejects choose it = true
            · have hm := loopMeasure_switch rest h1
              simp only [iterLoopF, if_neg h1, if_neg h2, if_pos h3]
              exact ih m it.key outList size (it :: rest) (by omega) (by omega)
            · by_cases h4 : (ktl it.key (it :: rest)).1 = []
              · have hm := loopMeasure_drop rest (ktl it.key (it :: rest)).2 h1
                simp only [iterLoopF, if_neg h1, if_neg h2, if_neg h3, if_pos h4]
                rw [ih m it.key outList size ((it :: rest).drop (ktl it.key (it :: rest)).2)
                  (by omega) (by omega)]
              · by_cases h5 : pageSize ≤ size + listSize (ktl it.key (it :: rest)).1
                · have hm := loopMeasure_drop rest (ktl it.key (it :: rest)).2 h1
                  simp only [iterLoopF, if_neg h1, if_neg h2, if_neg h3, if_neg h4, if_pos h5]
                  rw [ih m it.key [] 0 ((it :: rest).drop (ktl it.key (it :: rest)).2)
                    (by omega) (by omega)]
                · have hm := loopMeasure_drop rest (ktl it.key (it :: rest)).2 h1
                  simp only [iterLoopF, if_neg h1, if_neg h2, if_neg h3, if_neg h4, if_neg h5]
                  rw [ih m it.key (outList ++ (ktl it.key (it :: rest)).1)
                    (size + listSize (ktl it.key (it :: rest)).1)
                    ((it :: rest).drop (ktl it.key (it :: rest)).2)
                    (by omega) (by omega)]

/-! ### Structural facts about the scan loop -/

theorem listSize_append (a b : List KV) :
    listSize (a ++ b) = listSize a + listSize b := by
  simp [listSize]

theorem distinctFrom_drop (k : Key) :
    ∀ (n : Nat) (l : List Item), (∀ x ∈ l.take n, x.key = k) →
      distinctFrom k (l.drop n) = distinctFrom k l := by
  intro n
  induction n with
  | zero => simp
  | succ m ih =>
    intro l hl
    cases l with
    | nil => simp
    | cons x xs =>
      have hx : x.key = k := hl x (by simp)
      have htl : ∀ y ∈ xs.take m, y.key = k := by
        intro y hy
        exact hl y (by simp [hy])
      simp only [List.drop_succ_cons]
      rw [ih xs htl]
      simp [distinctFrom, hx]

/-- Every page the in-loop size check pushes contains at least one
record: the guard `len(list.Kv) == 0` filters empty expansion results
before they reach `outList`, and a push only happens right after a
non-empty append. -/
theorem iterLoopF_pages_nonempty (ktl : Key → List Item → List KV × Nat)
    (choose : Option (Item → Bool)) (right : Key) :
    ∀ fuel prevKey outList size rem,
      ∀ p ∈ (iterLoopF ktl choose right fuel prevKey outList size rem).thPages,
        p ≠ [] := by
  intro fuel
  induction fuel with
  | zero => intro prevKey outList size rem p hp; simp [iterLoopF] at hp
  | succ n ih =>
    intro prevKey outList size rem p hp
    cases rem with
    | nil => simp [iterLoopF] at hp
    | cons it rest =>
      by_cases h1 : it.key = prevKey
      · simp only [iterLoopF, if_pos h1] at hp
        exact ih prevKey outList size rest p hp
      · by_cases h2 : atRangeEnd right it.key
        · simp only [iterLoopF, if_neg h1, if_pos h2] at hp
          simp at hp
        · by_cases h3 : chooseRejects choose it = true
          · simp only [iterLoopF, if_neg h1, if_neg h2, if_pos h3] at hp
            exact ih it.key outList size (it :: rest) p hp
          · by_cases h4 : (ktl it.key (it :: rest)).1 = []
            · simp only [iterLoopF, if_neg h1, if_neg h2, if_neg h3, if_pos h4] at hp
              exact ih it.key outList size ((it :: rest).drop (ktl it.key (it :: rest)).2) p hp
            · by_cases h5 : pageSize ≤ size + listSize (ktl it.key (it :: rest)).1
              · simp only [iterLoopF, if_neg h1, if_neg h2, if_neg h3, if_neg h4, if_pos h5] at hp
                simp only [List.mem_cons] at hp
                rcases hp with rfl | hp
                · intro hcon
                  have : (ktl it.key (it :: rest)).1 = [] := by
                    cases hout : outList with
                    | nil => simpa [hout] using hcon
                    | cons a as => simp [hout] at hcon
                  exact h4 this
                · exact ih it.key [] 0 ((it :: rest).drop (ktl it.key (it :: rest)).2) p hp
              · simp only [iterLoopF, if_neg h1, if_neg h2, if_neg h3, if_neg h4, if_neg h5] at hp
                exact ih it.key (outList ++ (ktl it.key (it :: rest)).1)
                  (size + listSize (ktl it.key (it :: rest)).1)
                  ((it :: rest).drop (ktl it.key (it :: rest)).2) p hp

/-- Ghost-key characterization of the scan loop under the default
expansion policy and no selection predicate: `KeyToList` is invoked at
exactly the consecutive-distinct keys of the cursor suffix, up to the
first key at or past the range's right bound. -/
theorem iterLoopF_keys (nvk : Nat) (right : Key) :
    ∀ fuel prevKey outList size rem, loopMeasure prevKey rem ≤ fuel →
      (iterLoopF (toList nvk) none right fuel prevKey outList size rem).keys
        = (distinctFrom prevKey rem).takeWhile (fun k => !atRangeEnd right k) := by
  intro fuel
  induction fuel with
  | zero =>
    intro prevKey outList size rem hf
    have hnil : rem = [] := by
      have := loopMeasure_ge prevKey rem
      cases rem with
      | nil => rfl
      | cons it rest => simp at this; omega
    subst hnil
    simp [iterLoopF, distinctFrom]
  | succ n ih =>
    intro prevKey outList size rem hf
    cases rem with
    | nil => simp [iterLoopF, distinctFrom]
    | cons it rest =>
      by_cases h1 : it.key = prevKey
      · have hm := loopMeasure_tail rest h1
        simp only [iterLoopF, if_pos h1]
        rw [ih prevKey outList size rest (by omega)]
        simp [distinctFrom, h1]
      · by_cases h2 : atRangeEnd right it.key
        · simp only [iterLoopF, if_neg h1, if_pos h2]
          simp [distinctFrom, h1, List.takeWhile_cons, h2]
        · have h3 : ¬ chooseRejects none it = true := by simp [chooseRejects]
          by_cases h4 : (toList nvk it.key (it :: rest)).1 = []
          · have hm := loopMeasure_drop rest (toList nvk it.key (it :: rest)).2 h1
            simp only [iterLoopF, if_neg h1, if_neg h2, if_neg h3, if_pos h4]
            have hdrop := distinctFrom_drop it.key (toList nvk it.key (it :: rest)).2
              (it :: rest) (toList_take_key nvk it.key (it :: rest))
            rw [ih it.key outList size ((it :: rest).drop (toList nvk it.key (it :: rest)).2)
              (by omega)]
            rw [hdrop]
            simp [distinctFrom, h1, List.takeWhile_cons, h2]
          · by_cases h5 : pageSize ≤ size + listSize (toList nvk it.key (it :: rest)).1
            · have hm := loopMeasure_drop rest (toList nvk it.key (it :: rest)).2 h1
              simp only [iterLoopF, if_neg h1, if_neg h2, if_neg h3, if_neg h4, if_pos h5]
              have hdrop := distinctFrom_drop it.key (toList nvk it.key (it :: rest)).2
                (it :: rest) (toList_take_key nvk it.key (it :: rest))
              rw [ih it.key [] 0 ((it :: rest).drop (toList nvk it.key (it :: rest)).2)
                (by omega)]
              rw [hdrop]
              simp [distinctFrom, h1, List.takeWhile_cons, h2]
            · have hm := loopMeasure_drop rest (toList nvk it.key (it :: rest)).2 h1
              simp only [iterLoopF, if_neg h1, if_neg h2, if_neg h3, if_neg h4, if_neg h5]
              have hdrop := distinctFrom_drop it.key (toList nvk it.key (it :: rest)).2
                (it :: rest) (toList_take_key nvk it.key (it :: rest))
              rw [ih it.key (outList ++ (toList nvk it.key (it :: rest)).1)
                (size + listSize (toList nvk it.key (it :: rest)).1)
                ((it :: rest).drop (toList nvk it.key (it :: rest)).2) (by omega)]
              rw [hdrop]
              simp [distinctFrom, h1, List.takeWhile_cons, h2]

/-- Origin of every record the loop accumulates (under the default
expansion policy): it was already in the incoming accumulator, or it is
keyed by a cursor item of the suffix and its key lies below the range's
right bound. -/
theorem iterLoopF_kv_origin (nvk : Nat)
    (choose : Option (Item → Bool)) (right : Key) :
    ∀ fuel prevKey outList size rem, ∀ kv,
      kv ∈ (iterLoopF (toList nvk) choose right fuel prevKey outList size rem).thPages.flatten
        ++ (iterLoopF (toList nvk) choose right fuel prevKey outList size rem).outList →
      kv ∈ outList ∨
        ((∃ it ∈ rem, kv.key = it.key) ∧ atRangeEnd right kv.key = false) := by
  intro fuel
  induction fuel with
  | zero => intro prevKey outList size rem kv hkv; simp [iterLoopF] at hkv; simp [hkv]
  | succ n ih =>
    intro prevKey outList size rem kv hkv
    cases rem with
    | nil =>
      simp [iterLoopF] at hkv
      simp [hkv]
    | cons it rest =>
      by_cases h1 : it.key = prevKey
      · simp only [iterLoopF, if_pos h1] at hkv
        rcases ih prevKey outList size rest kv hkv with h | ⟨⟨x, hx, hk⟩, hr⟩
        · exact Or.inl h
        · exact Or.inr ⟨⟨x, List.mem_cons_of_mem it hx, hk⟩, hr⟩
      · by_cases h2 : atRangeEnd right it.key
        · simp only [iterLoopF, if_neg h1, if_pos h2] at hkv
          simp at hkv
          simp [hkv]
        · by_cases h3 : chooseRejects choose it = true
          · simp only [iterLoopF, if_neg h1, if_neg h2, if_pos h3] at hkv
            exact ih it.key outList size (it :: rest) kv hkv
          · by_cases h4 : (toList nvk it.key (it :: rest)).1 = []
            · simp only [iterLoopF, if_neg h1, if_neg h2, if_neg h3, if_pos h4] at hkv
              rcases ih it.key outList size ((it :: rest).drop (toList nvk it.key (it :: rest)).2)
                  kv hkv with h | ⟨⟨x, hx, hk⟩, hr⟩
              · exact Or.inl h
              · exact Or.inr ⟨⟨x, List.mem_of_mem_drop hx, hk⟩, hr⟩
            · have hkvs : ∀ kv' ∈ (toList nvk it.key (it :: rest)).1,
                  (∃ x ∈ it :: rest, kv'.key = x.key) ∧ atRangeEnd right kv'.key = false := by
                intro kv' hkv'
                have hk := toList_kv_keys nvk it.key (it :: rest) kv' hkv'
                have h2' : atRangeEnd right it.key = false := by
                  simpa using h2
                refine ⟨⟨it, by simp, hk⟩, ?_⟩
                rw [hk]
                exact h2'
              by_cases h5 : pageSize ≤ size + listSize (toList nvk it.key (it :: rest)).1
              · simp only [iterLoopF, if_neg h1, if_neg h2, if_neg h3, if_neg h4, if_pos h5] at hkv
                have hkv2 : kv ∈ outList ∨ kv ∈ (toList nvk it.key (it :: rest)).1 ∨
                    kv ∈ (iterLoopF (toList nvk) choose right n it.key [] 0
                        ((it :: rest).drop (toList nvk it.key (it :: rest)).2)).thPages.flatten
                      ++ (iterLoopF (toList nvk) choose right n it.key [] 0
                        ((it :: rest).drop (toList nvk it.key (it :: rest)).2)).outList := by
                  simp only [List.flatten_cons, List.mem_append, List.mem_flatten] at hkv ⊢
                  rcases hkv with ((h | h) | h) | h
                  · exact Or.inl h
                  · exact Or.inr (Or.inl h)
                  · exact Or.inr (Or.inr (Or.inl h))
                  · exact Or.inr (Or.inr (Or.inr h))
                rcases hkv2 with h | h | h
                · exact Or.inl h
                · exact Or.inr (hkvs kv h)
                · rcases ih it.key [] 0 ((it :: rest).drop (toList nvk it.key (it :: rest)).2)
                      kv h with h' | ⟨⟨x, hx, hk⟩, hr⟩
                  · simp at h'
                  · exact Or.inr ⟨⟨x, List.mem_of_mem_drop hx, hk⟩, hr⟩
              · simp only [iterLoopF, if_neg h1, if_neg h2, if_neg h3, if_neg h4, if_neg h5] at hkv
                rcases ih it.key (outList ++ (toList nvk it.key (it :: rest)).1)
                    (size + listSize (toList nvk it.key (it :: rest)).1)
                    ((it :: rest).drop (toList nvk it.key (it :: rest)).2) kv hkv with h | ⟨⟨x, hx, hk⟩, hr⟩
                · rcases List.mem_append.mp h with h | h
                  · exact Or.inl h
                  · exact Or.inr (hkvs kv h)
                · exact Or.inr ⟨⟨x, List.mem_of_mem_drop hx, hk⟩, hr⟩

/-- Size accounting of the scan loop: when the incoming `size` counter
splits as carried-in debt plus the accumulator's own size, every page the
loop pushes closes a counter that reached `pageSize`, the first one still
carrying the debt, and the final counter is the final accumulator's size
plus the debt if nothing was pushed. -/
theorem iterLoopF_size (ktl : Key → List Item → List KV × Nat)
    (choose : Option (Item → Bool)) (right : Key) :
    ∀ fuel prevKey outList carry size rem, size = carry + listSize outList →
      pagesSizeOk carry (iterLoopF ktl choose right fuel prevKey outList size rem).thPages ∧
      (iterLoopF ktl choose right fuel prevKey outList size rem).sz
        = (if (iterLoopF ktl choose right fuel prevKey outList size rem).thPages = []
            then carry else 0)
          + listSize (iterLoopF ktl choose right fuel prevKey outList size rem).outList := by
  intro fuel
  induction fuel with
  | zero =>
    intro prevKey outList carry size rem hs
    simp [iterLoopF, pagesSizeOk, hs]
  | succ n ih =>
    intro prevKey outList carry size rem hs
    cases rem with
    | nil => simp [iterLoopF, pagesSizeOk, hs]
    | cons it rest =>
      by_cases h1 : it.key = prevKey
      · simp only [iterLoopF, if_pos h1]
        exact ih prevKey outList carry size rest hs
      · by_cases h2 : atRangeEnd right it.key
        · simp only [iterLoopF, if_neg h1, if_pos h2]
          simp [pagesSizeOk, hs]
        · by_cases h3 : chooseRejects choose it = true
          · simp only [iterLoopF, if_neg h1, if_neg h2, if_pos h3]
            exact ih it.key outList carry size (it :: rest) hs
          · by_cases h4 : (ktl it.key (it :: rest)).1 = []
            · simp only [iterLoopF, if_neg h1, if_neg h2, if_neg h3, if_pos h4]
              exact ih it.key outList carry size ((it :: rest).drop (ktl it.key (it :: rest)).2) hs
            · by_cases h5 : pageSize ≤ size + listSize (ktl it.key (it :: rest)).1
              · simp only [iterLoopF, if_neg h1, if_neg h2, if_neg h3, if_neg h4, if_pos h5]
                have hrec := ih it.key [] 0 0 ((it :: rest).drop (ktl it.key (it :: rest)).2) (by simp [listSize])
                constructor
                · simp only [pagesSizeOk]
                  refine ⟨?_, ?_⟩
                  · rw [listSize_append]
                    omega
                  · exact hrec.1
                · have h2nd := hrec.2
                  rcases hp : (iterLoopF ktl choose right n it.key [] 0
                      ((it :: rest).drop (ktl it.key (it :: rest)).2)).thPages with _ | ⟨q, qs⟩
                  · simp [hp] at h2nd
                    simp [hp, h2nd]
                  · simp [hp] at h2nd
                    simp [hp, h2nd]
              · simp only [iterLoopF, if_neg h1, if_neg h2, if_neg h3, if_neg h4, if_neg h5]
                exact ih it.key (outList ++ (ktl it.key (it :: rest)).1) carry
                  (size + listSize (ktl it.key (it :: rest)).1)
                  ((it :: rest).drop (ktl it.key (it :: rest)).2)
                  (by rw [listSize_append]; omega)

/-! ### Sorted-cursor facts: seek, distinct keys, and range chaining -/

theorem bcmp_lt_le_trans {a b c : Key} (hab : bcmp a b = Ordering.lt)
    (hbc : bcmp b c ≠ Ordering.gt) : bcmp a c = Ordering.lt := by
  induction a generalizing b c with
  | nil =>
    cases c with
    | nil =>
      cases b with
      | nil => exact absurd hab (by simp [bcmp])
      | cons y ys => exact absurd (show bcmp (y :: ys) [] = Ordering.gt from rfl) hbc
    | cons z zs => rfl
  | cons x xs ih =>
    cases b with
    | nil => exact absurd hab (by simp [bcmp])
    | cons y ys =>
      cases c with
      | nil => exact absurd (show bcmp (y :: ys) [] = Ordering.gt from rfl) hbc
      | cons z zs =>
        by_cases hxy : x < y
        · by_cases hyz : y < z
          · have : x < z := by omega
            simp [bcmp, this]
          · by_cases hzy : z < y
            · exact absurd (by simp [bcmp, hyz, hzy] : bcmp (y :: ys) (z :: zs) = Ordering.gt) hbc
            · have : x < z := by omega
              simp [bcmp, this]
        · by_cases hyx : y < x
          · exact absurd hab (by simp [bcmp, hxy, hyx])
          · have hxy' : x = y := by omega
            subst hxy'
            by_cases hxz : x < z
            · simp [bcmp, hxz]
            · by_cases hzx : z < x
              · exact absurd (by simp [bcmp, hxz, hzx] : bcmp (x :: ys) (z :: zs) = Ordering.gt) hbc
              · have htl : bcmp xs ys = Ordering.lt := by
                  simpa [bcmp, hxy, hyx] using hab
                have htl2 : bcmp ys zs ≠ Ordering.gt := by
                  intro h
                  exact hbc (by simp [bcmp, hxz, hzx, h])
                simp [bcmp, hxz, hzx, ih htl htl2]

theorem keysSorted_tail {it : Item} {l : List Item} (h : keysSorted (it :: l)) :
    keysSorted l := (List.pairwise_cons.mp h).2

theorem keysSorted_dropWhile (p : Item → Bool) {l : List Item}
    (h : keysSorted l) : keysSorted (l.dropWhile p) :=
  h.sublist (List.dropWhile_sublist p)

/-- On a sorted cursor, everything at or past the seek target stays at or
past it. -/
theorem seekTo_mem_ge {entries : List Item} (hs : keysSorted entries)
    (l : Key) : ∀ it ∈ seekTo l entries, bcmp it.key l ≠ Ordering.lt := by
  induction entries with
  | nil => simp [seekTo]
  | cons x xs ih =>
    intro it hit
    by_cases hx : bcmp x.key l = Ordering.lt
    · have : seekTo l (x :: xs) = seekTo l xs := by
        simp [seekTo, List.dropWhile_cons, hx]
      rw [this] at hit
      exact ih (keysSorted_tail hs) it hit
    · have : seekTo l (x :: xs) = x :: xs := by
        simp [seekTo, List.dropWhile_cons, hx]
      rw [this] at hit
      rcases List.mem_cons.mp hit with rfl | hit
      · exact hx
      · intro hlt
        have hle : bcmp x.key it.key ≠ Ordering.gt :=
          (List.pairwise_cons.mp hs).1 it hit
        exact hx (bcmp_le_lt_trans hle hlt)

/-- Every distinct key comes from some cursor item. -/
theorem distinctFrom_mem {k : Key} :
    ∀ (prev : Key) (l : List Item), k ∈ distinctFrom prev l →
      ∃ it ∈ l, it.key = k := by
  intro prev l
  induction l generalizing prev with
  | nil => simp [distinctFrom]
  | cons x xs ih =>
    intro hk
    by_cases hx : x.key = prev
    · simp only [distinctFrom, if_pos hx] at hk
      obtain ⟨it, hit, h⟩ := ih prev hk
      exact ⟨it, List.mem_cons_of_mem x hit, h⟩
    · simp only [distinctFrom, if_neg hx, List.mem_cons] at hk
      rcases hk with rfl | hk
      · exact ⟨x, by simp, rfl⟩
      · obtain ⟨it, hit, h⟩ := ih x.key hk
        exact ⟨it, List.mem_cons_of_mem x hit, h⟩

/-- Generalized seek/distinct commutation: scanning a sorted cursor from
a `prev` strictly below the seek target, the distinct keys after the seek
are the distinct keys with the below-target prefix dropped. -/
theorem distinctFrom_seek_aux {l : Key} :
    ∀ (rest : List Item) (prev : Key), keysSorted rest →
      (∀ it ∈ rest, it.key ≠ []) → bcmp prev l = Ordering.lt →
      distinctFrom [] (rest.dropWhile (fun it => decide (bcmp it.key l = Ordering.lt)))
        = (distinctFrom prev rest).dropWhile (fun k => decide (bcmp k l = Ordering.lt)) := by
  intro rest
  induction rest with
  | nil => simp [distinctFrom]
  | cons x xs ih =>
    intro prev hs hne hprev
    by_cases hxl : bcmp x.key l = Ordering.lt
    · have hstep : (x :: xs).dropWhile (fun it => decide (bcmp it.key l = Ordering.lt))
          = xs.dropWhile (fun it => decide (bcmp it.key l = Ordering.lt)) := by
        rw [List.dropWhile_cons]
        simp [hxl]
      by_cases hxp : x.key = prev
      · rw [hstep]
        rw [ih prev (keysSorted_tail hs) (fun it h => hne it (List.mem_cons_of_mem x h)) hprev]
        simp [distinctFrom, hxp]
      · rw [hstep]
        rw [ih x.key (keysSorted_tail hs) (fun it h => hne it (List.mem_cons_of_mem x h)) hxl]
        simp only [distinctFrom, if_neg hxp]
        rw [List.dropWhile_cons]
        simp [hxl]
    · have hstop : (x :: xs).dropWhile (fun it => decide (bcmp it.key l = Ordering.lt)) = x :: xs := by
        rw [List.dropWhile_cons]
        simp [hxl]
      rw [hstop]
      have hxp : ¬ x.key = prev := by
        intro h
        rw [h] at hxl
        exact hxl hprev
      have hxnil : x.key ≠ [] := hne x (by simp)
      simp only [distinctFrom, if_neg hxp, if_neg hxnil]
      rw [List.dropWhile_cons]
      simp [hxl]

/-- Seek commutes with distinct-key extraction on a sorted cursor with
non-empty keys. -/
theorem distinctFrom_seek {entries : List Item} (hs : keysSorted entries)
    (hne : ∀ it ∈ entries, it.key ≠ []) (l : Key) :
    distinctFrom [] (seekTo l entries)
      = (distinctFrom [] entries).dropWhile (fun k => decide (bcmp k l = Ordering.lt)) := by
  cases entries with
  | nil => simp [seekTo, distinctFrom]
  | cons x xs =>
    by_cases hxl : bcmp x.key l = Ordering.lt
    · have hxnil : x.key ≠ [] := hne x (by simp)
      have h1 : seekTo l (x :: xs) = xs.dropWhile (fun it => decide (bcmp it.key l = Ordering.lt)) := by
        simp [seekTo, List.dropWhile_cons, hxl]
      rw [h1]
      rw [distinctFrom_seek_aux xs x.key (keysSorted_tail hs)
        (fun it h => hne it (List.mem_cons_of_mem x h)) hxl]
      simp only [distinctFrom, if_neg hxnil]
      rw [List.dropWhile_cons]
      simp [hxl]
    · have hxnil : x.key ≠ [] := hne x (by simp)
      have h1 : seekTo l (x :: xs) = x :: xs := by
        simp [seekTo, List.dropWhile_cons, hxl]
      rw [h1]
      simp only [distinctFrom, if_neg hxnil]
      rw [List.dropWhile_cons]
      simp [hxl]

theorem dropWhile_absorb (p q : Key → Bool) (himp : ∀ x, p x = true → q x = true) :
    ∀ D : List Key, D.dropWhile q = (D.dropWhile p).dropWhile q := by
  intro D
  induction D with
  | nil => rfl
  | cons x xs ih =>
    by_cases hp : p x = true
    · have hq := himp x hp
      have h1 : (x :: xs).dropWhile p = xs.dropWhile p := by
        rw [List.dropWhile_cons]
        simp [hp]
      have h2 : (x :: xs).dropWhile q = xs.dropWhile q := by
        rw [List.dropWhile_cons]
        simp [hq]
      rw [h2, h1, ih]
    · have h1 : (x :: xs).dropWhile p = x :: xs := by
        rw [List.dropWhile_cons]
        simp [hp]
      rw [h1]

theorem atRangeEnd_nil (k : Key) : atRangeEnd [] k = false := by
  simp [atRangeEnd]

theorem takeWhile_atRangeEnd_nil (D : List Key) :
    D.takeWhile (fun k => !atRangeEnd [] k) = D := by
  induction D with
  | nil => rfl
  | cons x xs ih => simp [List.takeWhile_cons, atRangeEnd_nil, ih]

theorem atRangeEnd_ne_nil {s : Key} (hs : s ≠ []) (k : Key) :
    (!atRangeEnd s k) = (decide (bcmp k s = Ordering.lt)) := by
  have : s.isEmpty = false := by
    cases s with
    | nil => exact absurd rfl hs
    | cons a as => rfl
  simp [atRangeEnd, this]

/-- Chained half-open ranges partition the tail of a sorted key list:
concatenating the per-range key segments recovers everything from the
first left bound on. -/
theorem rKeys_join (D : List Key) :
    ∀ (splits : List Key) (start : Key), chainLe (start :: splits) →
      (∀ s ∈ splits, s ≠ []) →
      ((produceRangesFrom start splits).map (fun kr =>
          (D.dropWhile (fun k => decide (bcmp k kr.left = Ordering.lt))).takeWhile
            (fun k => !atRangeEnd kr.right k))).flatten
        = D.dropWhile (fun k => decide (bcmp k start = Ordering.lt)) := by
  intro splits
  induction splits with
  | nil =>
    intro start hch hsp
    simp only [produceRangesFrom, List.map_cons, List.map_nil, List.flatten_cons,
      List.flatten_nil, List.append_nil]
    exact takeWhile_atRangeEnd_nil _
  | cons s ss ih =>
    intro start hch hsp
    have hle : bcmp start s ≠ Ordering.gt := hch.1
    have hsnil : s ≠ [] := hsp s (by simp)
    simp only [produceRangesFrom, List.map_cons, List.flatten_cons]
    rw [ih s hch.2 (fun x hx => hsp x (List.mem_cons_of_mem s hx))]
    have habs : D.dropWhile (fun k => decide (bcmp k s = Ordering.lt))
        = (D.dropWhile (fun k => decide (bcmp k start = Ordering.lt))).dropWhile
            (fun k => decide (bcmp k s = Ordering.lt)) := by
      refine dropWhile_absorb _ _ ?_ D
      intro x hx
      simp only [decide_eq_true_eq] at hx ⊢
      exact bcmp_lt_le_trans hx hle
    rw [habs]
    have hpred : (fun k => !atRangeEnd s k) = (fun k => decide (bcmp k s = Ordering.lt)) := by
      funext k
      exact atRangeEnd_ne_nil hsnil k
    rw [hpred]
    exact List.takeWhile_append_dropWhile _ _

theorem dropWhile_eq_self_of_all {p : Key → Bool} :
    ∀ D : List Key, (∀ k ∈ D, p k = false) → D.dropWhile p = D := by
  intro D h
  cases D with
  | nil => rfl
  | cons x xs =>
    rw [List.dropWhile_cons]
    simp [h x (by simp)]

/-! ### Assembly: per-range and per-run key coverage -/

theorem iterateR_keys (nvk : Nat) (entries : List Item) (kr : KeyRange) (s0 : Nat) :
    (iterateR (toList nvk) none entries kr s0).keys
      = (distinctFrom [] (seekTo kr.left entries)).takeWhile
          (fun k => !atRangeEnd kr.right k) :=
  iterLoopF_keys nvk kr.right (loopMeasure [] (seekTo kr.left entries))
    [] [] s0 (seekTo kr.left entries) le_rfl

theorem runRanges_keys (nvk : Nat) (entries : List Item) :
    ∀ (ranges : List KeyRange) (s0 : Nat),
      (runRanges (toList nvk) none entries ranges s0).keysPerRange
        = ranges.map (fun kr =>
            (distinctFrom [] (seekTo kr.left entries)).takeWhile
              (fun k => !atRangeEnd kr.right k)) := by
  intro ranges
  induction ranges with
  | nil => intro s0; rfl
  | cons kr rest ih =>
    intro s0
    simp only [runRanges, List.map_cons]
    rw [ih, iterateR_keys]

/-! ### Claim theorems -/

/-- C1 (counterexample): the claim's multiset equality fails on the code.
A key with two live versions under the keep-all policy yields two
records, so its key appears twice in the delivered records while it is a
single distinct key of the snapshot (a key whose head version is deleted
conversely yields zero records). -/
theorem c1_counterexample :
    ((runRecords (toList 0) none
        [⟨[1], 2, [5], 0, 0, false, false⟩, ⟨[1], 1, [6], 0, 0, false, false⟩]
        (produceRanges [] []) 0).map KV.key : Multiset Key)
      ≠ (↑(distinctFrom []
        [⟨[1], 2, [5], 0, 0, false, false⟩, ⟨[1], 1, [6], 0, 0, false, false⟩]) :
          Multiset Key) := by
  decide

/-- C1 (amended): for every run with no key-selection predicate and the
default key-expansion policy, over a sorted prefix-restricted snapshot
with non-empty keys and ordered split points, the concatenation over all
ranges of the keys at which the key-expansion policy is invoked equals
the list of distinct keys present in the snapshot restricted to the
prefix — so no key is lost and no key is handed to the expansion policy
by more than one range (in particular the multiset of such keys matches
the multiset of distinct keys).  The multiset of keys appearing in the
delivered records is then determined per key by the policy, which may
emit zero or several records for one key. -/
theorem c1_amended_coverage (nvk : Nat) (entries : List Item) (pfx : Key)
    (splits : List Key) (s0 : Nat)
    (hs : keysSorted entries)
    (hne : ∀ it ∈ entries, it.key ≠ [])
    (hp : ∀ it ∈ entries, pfx.isPrefixOf it.key = true)
    (hch : chainLe (pfx :: splits))
    (hsp : ∀ s ∈ splits, s ≠ []) :
    ((runRanges (toList nvk) none entries (produceRanges pfx splits) s0).keysPerRange).flatten
      = distinctFrom [] entries := by
  rw [produceRanges, runRanges_keys]
  have hmap : (produceRangesFrom pfx splits).map
      (fun kr => (distinctFrom [] (seekTo kr.left entries)).takeWhile
        (fun k => !atRangeEnd kr.right k))
      = (produceRangesFrom pfx splits).map
      (fun kr => ((distinctFrom [] entries).dropWhile
          (fun k => decide (bcmp k kr.left = Ordering.lt))).takeWhile
        (fun k => !atRangeEnd kr.right k)) := by
    apply List.map_congr_left
    intro kr _
    rw [distinctFrom_seek hs hne kr.left]
  rw [hmap, rKeys_join (distinctFrom [] entries) splits pfx hch hsp]
  apply dropWhile_eq_self_of_all
  intro k hk
  obtain ⟨it, hit, rfl⟩ := distinctFrom_mem [] entries hk
  simp only [decide_eq_false_iff_not]
  exact isPrefixOf_not_lt (hp it hit)

/-- C1 (witness): the amended coverage theorem applied to a concrete
sorted snapshot under the prefix `[1]` with one split point. -/
theorem c1_amended_coverage_witness :
    keysSorted [⟨[1, 0], 1, [9], 0, 0, false, false⟩,
        ⟨[1, 5], 3, [8], 0, 0, true, false⟩, ⟨[1, 7], 2, [7], 0, 0, false, false⟩] ∧
    ((runRanges (toList 0) none
        [⟨[1, 0], 1, [9], 0, 0, false, false⟩, ⟨[1, 5], 3, [8], 0, 0, true, false⟩,
          ⟨[1, 7], 2, [7], 0, 0, false, false⟩]
        (produceRanges [1] [[1, 5]]) 0).keysPerRange).flatten
      = [[1, 0], [1, 5], [1, 7]] := by
  refine ⟨by decide, ?_⟩
  have h := c1_amended_coverage 0
    [⟨[1, 0], 1, [9], 0, 0, false, false⟩, ⟨[1, 5], 3, [8], 0, 0, true, false⟩,
      ⟨[1, 7], 2, [7], 0, 0, false, false⟩]
    [1] [[1, 5]] 0 (by decide) (by decide) (by decide)
    ⟨by decide, trivial⟩ (by decide)
  rw [h]
  decide

/-- C2: the default key-expansion policy, with the cursor on a key's
highest version, walks forward while the cursor stays on the same key,
emits one record per retained version in cursor (descending-version)
order — the records are the image of a cursor prefix; it stops excluding
the current entry and the remainder on a deleted-or-expired entry or a
key change, and stops after including the current entry when the
versions-to-keep limit is 1 or the entry carries the
discard-earlier-versions flag.  For versions [v5 live, v4 live, v3
deleted] under keep-all it emits exactly v5 and v4, leaving the cursor on
v3. -/
theorem c2_toList_default_policy :
    (∀ (nvk : Nat) (k : Key), toList nvk k [] = ([], 0)) ∧
    (∀ (nvk : Nat) (k : Key) (it : Item) (rest : List Item),
      it.deletedOrExpired = true → toList nvk k (it :: rest) = ([], 0)) ∧
    (∀ (nvk : Nat) (k : Key) (it : Item) (rest : List Item),
      it.deletedOrExpired = false → it.key ≠ k →
      toList nvk k (it :: rest) = ([], 0)) ∧
    (∀ (k : Key) (it : Item) (rest : List Item),
      it.deletedOrExpired = false → it.key = k →
      toList 1 k (it :: rest) = ([mkKV it], 0)) ∧
    (∀ (nvk : Nat) (k : Key) (it : Item) (rest : List Item),
      nvk ≠ 1 → it.deletedOrExpired = false → it.key = k →
      it.discardEarlier = true → toList nvk k (it :: rest) = ([mkKV it], 0)) ∧
    (∀ (nvk : Nat) (k : Key) (it : Item) (rest : List Item),
      nvk ≠ 1 → it.deletedOrExpired = false → it.key = k →
      it.discardEarlier = false →
      toList nvk k (it :: rest)
        = (mkKV it :: (toList nvk k rest).1, (toList nvk k rest).2 + 1)) ∧
    (∀ (nvk : Nat) (k : Key) (l : List Item),
      (toList nvk k l).1 = (l.take (toList nvk k l).1.length).map mkKV) ∧
    (toList 2147483647 [7]
        [⟨[7], 5, [1], 0, 0, false, false⟩, ⟨[7], 4, [2], 0, 0, false, false⟩,
          ⟨[7], 3, [3], 0, 0, true, false⟩]
      = ([mkKV ⟨[7], 5, [1], 0, 0, false, false⟩,
          mkKV ⟨[7], 4, [2], 0, 0, false, false⟩], 2)) := by
  refine ⟨fun nvk k => rfl, ?_, ?_, ?_, ?_, ?_, ?_, by decide⟩
  · intro nvk k it rest hdel
    simp [toList, hdel]
  · intro nvk k it rest hdel hkey
    simp [toList, hdel, hkey]
  · intro k it rest hdel hkey
    simp [toList, hdel, hkey]
  · intro nvk k it rest hnvk hdel hkey hdis
    simp [toList, hdel, hkey, hnvk, hdis]
  · intro nvk k it rest hnvk hdel hkey hdis
    simp [toList, hdel, hkey, hnvk, hdis]
  · intro nvk k l
    exact toList_take_map nvk k l

/-- C2 (witness): the characterization applied at concrete entries —
a deleted head version yields nothing, and a live flagged head version
yields itself alone. -/
theorem c2_toList_default_policy_witness :
    toList 5 [1] [⟨[1], 9, [], 0, 0, true, false⟩] = ([], 0) ∧
    toList 5 [1] [⟨[1], 9, [2], 0, 0, false, true⟩, ⟨[1], 8, [2], 0, 0, false, false⟩]
      = ([mkKV ⟨[1], 9, [2], 0, 0, false, true⟩], 0) :=
  ⟨c2_toList_default_policy.2.1 5 [1] ⟨[1], 9, [], 0, 0, true, false⟩ [] rfl,
   c2_toList_default_policy.2.2.2.2.1 5 [1] ⟨[1], 9, [2], 0, 0, false, true⟩
     [⟨[1], 8, [2], 0, 0, false, false⟩] (by decide) rfl rfl rfl⟩

/-- C5: with the versions-to-keep limit at 1, the default expansion
policy emits at most one record per key; when it emits one, the record
is built from the cursor entry the policy was handed — the key's highest
version — whatever the state of any lower version (which is never
examined); under descending-version cursor order that record's version
dominates every same-key version. -/
theorem c5_single_version_keep (k : Key) (items : List Item) :
    (toList 1 k items).1.length ≤ 1 ∧
    (∀ kv ∈ (toList 1 k items).1, ∃ h : items ≠ [], kv = mkKV (items.head h)) ∧
    (items.Pairwise (fun a b => a.key = b.key → b.version ≤ a.version) →
      ∀ kv ∈ (toList 1 k items).1, ∀ it ∈ items, it.key = k →
        it.version ≤ kv.version) := by
  cases items with
  | nil => simp [toList]
  | cons it rest =>
    by_cases hdel : it.deletedOrExpired
    · simp [toList, hdel]
    · by_cases hkey : it.key = k
      · have hres : toList 1 k (it :: rest) = ([mkKV it], 0) := by
          simp [toList, hdel, hkey]
        rw [hres]
        refine ⟨by simp, ?_, ?_⟩
        · intro kv hkv
          simp only [List.mem_singleton] at hkv
          exact ⟨by simp, by simp [hkv]⟩
        · intro hp kv hkv it2 hit2 hk2
          simp only [List.mem_singleton] at hkv
          subst hkv
          rcases List.mem_cons.mp hit2 with rfl | hit2
          · simp [mkKV]
          · have := (List.pairwise_cons.mp hp).1 it2 hit2
            simp only [mkKV]
            exact this (by rw [hkey, hk2])
      · simp [toList, hdel, hkey]

/-- C5 (witness): a key whose lower version is deleted still yields
exactly its highest version under versions-to-keep 1. -/
theorem c5_single_version_keep_witness :
    (toList 1 [2] [⟨[2], 9, [4], 0, 0, false, false⟩, ⟨[2], 5, [4], 0, 0, true, false⟩]).1.length ≤ 1 ∧
    (∀ kv ∈ (toList 1 [2] [⟨[2], 9, [4], 0, 0, false, false⟩,
        ⟨[2], 5, [4], 0, 0, true, false⟩]).1,
      kv = mkKV ⟨[2], 9, [4], 0, 0, false, false⟩) := by
  have h := c5_single_version_keep [2]
    [⟨[2], 9, [4], 0, 0, false, false⟩, ⟨[2], 5, [4], 0, 0, true, false⟩]
  refine ⟨h.1, ?_⟩
  intro kv hkv
  obtain ⟨_, hkv'⟩ := h.2.1 kv hkv
  exact hkv'

/-! ### C3: shape of the splitter output -/

theorem produceRangesFrom_ne_nil (start : Key) (splits : List Key) :
    produceRangesFrom start splits ≠ [] := by
  cases splits <;> simp [produceRangesFrom]

theorem produceRangesFrom_head (start : Key) (splits : List Key) :
    (produceRangesFrom start splits).head?.map KeyRange.left = some start := by
  cases splits <;> rfl

theorem produceRangesFrom_chained (splits : List Key) :
    ∀ start : Key, chainedRanges (produceRangesFrom start splits) := by
  induction splits with
  | nil => intro start; simp [produceRangesFrom, chainedRanges]
  | cons s ss ih =>
    intro start
    cases ss with
    | nil => simp [produceRangesFrom, chainedRanges]
    | cons t ts =>
      have h := ih s
      simp only [produceRangesFrom, chainedRanges] at h ⊢
      exact ⟨by trivial, h⟩

theorem produceRangesFrom_last (splits : List Key) :
    ∀ start : Key,
      ((produceRangesFrom start splits).getLast?).map KeyRange.right = some [] := by
  induction splits with
  | nil => intro start; rfl
  | cons s ss ih =>
    intro start
    cases ss with
    | nil => rfl
    | cons t ts =>
      have h := ih s
      simp only [produceRangesFrom] at h ⊢
      rw [List.getLast?_cons_cons]
      exact h

/-- C3 (counterexample): for the bounded prefix `[1]` with no split
points, the single emitted range is open-ended (`right = []`) and
contains the key `[2]`, which lies outside the prefix — the final range
does not end at the prefix's upper bound, and `right = []` is emitted
even though the prefix is bounded. -/
theorem c3_counterexample :
    produceRanges [1] [] = [⟨[1], []⟩] ∧
    inRangeB ⟨[1], []⟩ [2] = true ∧
    ([1] : Key).isPrefixOf [2] = false := by
  decide

/-- C3 (amended): the splitter emits a non-empty chained sequence of
ranges whose first left bound is the prefix, exactly one range when there
are no split points; the final range is always open-ended (`right = []`)
regardless of whether the prefix is bounded — the prefix restriction is
enforced by the scan iterator, not by the range bounds. -/
theorem c3_amended_ranges (pfx : Key) (splits : List Key) :
    produceRanges pfx splits ≠ [] ∧
    (produceRanges pfx splits).head?.map KeyRange.left = some pfx ∧
    chainedRanges (produceRanges pfx splits) ∧
    ((produceRanges pfx splits).getLast?).map KeyRange.right = some [] ∧
    (splits = [] → produceRanges pfx splits = [⟨pfx, []⟩]) :=
  ⟨produceRangesFrom_ne_nil pfx splits,
   produceRangesFrom_head pfx splits,
   produceRangesFrom_chained splits pfx,
   produceRangesFrom_last splits pfx,
   fun h => by rw [h]; rfl⟩

/-- C3 (witness): the amended shape at a concrete prefix and one split
point. -/
theorem c3_amended_ranges_witness :
    produceRanges [3] [[3, 4]] ≠ [] ∧
    chainedRanges (produceRanges [3] [[3, 4]]) ∧
    produceRanges [3] [] = [⟨[3], []⟩] := by
  have h := c3_amended_ranges [3] [[3, 4]]
  have h0 := c3_amended_ranges [3] []
  exact ⟨h.1, h.2.2.1, h0.2.2.2.2 rfl⟩

/-! ### C4/C10 helpers: per-range page facts -/

theorem iterateR_pages_nonempty (ktl : Key → List Item → List KV × Nat)
    (choose : Option (Item → Bool)) (entries : List Item) (kr : KeyRange)
    (s : Nat) : ∀ p ∈ rangePages (iterateR ktl choose entries kr s), p ≠ [] := by
  intro p hp
  rcases List.mem_append.mp hp with h | h
  · exact iterLoopF_pages_nonempty ktl choose kr.right _ _ _ _ _ p h
  · by_cases he : (iterateR ktl choose entries kr s).outList.isEmpty
    · simp [he] at h
    · simp only [he, if_neg, Bool.false_eq_true, not_false_eq_true, ite_false] at h
      simp only [List.mem_singleton] at h
      subst h
      intro hcon
      rw [hcon] at he
      simp at he

theorem iterateR_sizeOk (ktl : Key → List Item → List KV × Nat)
    (choose : Option (Item → Bool)) (entries : List Item) (kr : KeyRange)
    (s : Nat) : pagesSizeOk s (iterateR ktl choose entries kr s).thPages :=
  (iterLoopF_size ktl choose kr.right (loopMeasure [] (seekTo kr.left entries))
    [] [] s s (seekTo kr.left entries) (by simp [listSize])).1

/-- Every run satisfies the carried-counter size conformance: each
threshold push closes a counter that reached `pageSize`, where the
counter entering a range is whatever the previous range left behind (it
is reset only by threshold pushes, never by the trailing flush). -/
theorem runRanges_sizeOk (ktl : Key → List Item → List KV × Nat)
    (choose : Option (Item → Bool)) (entries : List Item) :
    ∀ (ranges : List KeyRange) (s0 : Nat),
      rangesSizeOk ktl choose entries ranges s0 := by
  intro ranges
  induction ranges with
  | nil => intro s0; trivial
  | cons kr rest ih =>
    intro s0
    exact ⟨iterateR_sizeOk ktl choose entries kr s0, ih _⟩

/-- Records of one range call stay within the range's bounds (sorted
cursor, default policy). -/
theorem iterateR_confined (nvk : Nat) (choose : Option (Item → Bool))
    {entries : List Item} (hs : keysSorted entries) (kr : KeyRange) (s : Nat) :
    ∀ p ∈ rangePages (iterateR (toList nvk) choose entries kr s),
      ∀ kv ∈ p, inRangeB kr kv.key = true := by
  intro p hp kv hkv
  have hflat : kv ∈ (iterateR (toList nvk) choose entries kr s).thPages.flatten
      ++ (iterateR (toList nvk) choose entries kr s).outList := by
    rcases List.mem_append.mp hp with h | h
    · exact List.mem_append.mpr (Or.inl (List.mem_flatten.mpr ⟨p, h, hkv⟩))
    · by_cases he : (iterateR (toList nvk) choose entries kr s).outList.isEmpty
      · simp [he] at h
      · simp only [he, Bool.false_eq_true, not_false_eq_true, ite_false,
          List.mem_singleton] at h
        subst h
        exact List.mem_append.mpr (Or.inr hkv)
  unfold iterateR at hflat
  rcases iterLoopF_kv_origin nvk choose kr.right _ _ _ _ _ kv hflat with h | ⟨⟨it, hit, hk⟩, hr⟩
  · simp at h
  · have hge := seekTo_mem_ge hs kr.left it hit
    simp only [inRangeB, Bool.and_eq_true, Bool.not_eq_true']
    refine ⟨?_, hr⟩
    simp only [decide_eq_false_iff_not]
    rw [hk]
    exact hge

/-- Pairing each range with the pages its call produced: every paired
page list stems from one `iterate` call on exactly that range. -/
theorem runRanges_pages_mem (ktl : Key → List Item → List KV × Nat)
    (choose : Option (Item → Bool)) (entries : List Item) :
    ∀ (ranges : List KeyRange) (s0 : Nat) (pr : KeyRange × List (List KV)),
      pr ∈ ranges.zip (runRanges ktl choose entries ranges s0).pagesPerRange →
      ∃ s, pr.2 = rangePages (iterateR ktl choose entries pr.1 s) := by
  intro ranges
  induction ranges with
  | nil => intro s0 pr hpr; simp [runRanges] at hpr
  | cons kr rest ih =>
    intro s0 pr hpr
    simp only [runRanges, List.zip_cons_cons, List.mem_cons] at hpr
    rcases hpr with rfl | hpr
    · exact ⟨s0, rfl⟩
    · exact ih _ pr hpr

theorem runRanges_pages_nonempty (ktl : Key → List Item → List KV × Nat)
    (choose : Option (Item → Bool)) (entries : List Item) :
    ∀ (ranges : List KeyRange) (s0 : Nat),
      ∀ p ∈ (runRanges ktl choose entries ranges s0).pagesPerRange.flatten, p ≠ [] := by
  intro ranges
  induction ranges with
  | nil => intro s0 p hp; simp [runRanges] at hp
  | cons kr rest ih =>
    intro s0 p hp
    simp only [runRanges, List.flatten_cons, List.mem_append] at hp
    rcases hp with hp | hp
    · exact iterateR_pages_nonempty ktl choose entries kr s0 p hp
    · exact ih _ p (List.mem_flatten.mpr (by simpa using List.mem_flatten.mp hp))

/-- C4 (amended): for every run (default policy), (i) the records of a
page all lie inside the half-open range whose scan produced the page —
with the ranges disjoint, no page mixes records of two ranges; (ii) every
page pushed onto the page channel is non-empty; (iii) an in-loop page
push happens exactly when the worker's cumulative `size` counter reaches
`pageSize` — but that counter is reset only by such pushes and carries
over the trailing range-exhaustion flush, so the first page of a range
conforms only relative to the carried-in counter, not to its own records'
size. -/
theorem c4_amended_paging (nvk : Nat) (choose : Option (Item → Bool))
    (entries : List Item) (ranges : List KeyRange) (s0 : Nat)
    (hs : keysSorted entries) :
    (∀ pr ∈ ranges.zip
        (runRanges (toList nvk) choose entries ranges s0).pagesPerRange,
      ∀ p ∈ pr.2, ∀ kv ∈ p, inRangeB pr.1 kv.key = true) ∧
    (∀ p ∈ (runRanges (toList nvk) choose entries ranges s0).pagesPerRange.flatten,
      p ≠ []) ∧
    rangesSizeOk (toList nvk) choose entries ranges s0 := by
  refine ⟨?_, runRanges_pages_nonempty _ _ _ _ _, runRanges_sizeOk _ _ _ _ _⟩
  intro pr hpr p hp kv hkv
  obtain ⟨s, hs'⟩ := runRanges_pages_mem (toList nvk) choose entries ranges s0 pr hpr
  rw [hs'] at hp
  exact iterateR_confined nvk choose hs pr.1 s p hp kv hkv

/-! ### C6/C7/C8/C9/C10 -/

/-- C6 (counterexample): the splitter does not observe the cancellation
token at its blocking pushes — with the token fired from the start it
still pushes every range and finishes without a cancellation-kind error,
contradicting "every blocking wait point in the splitter observes the
cancellation token". -/
theorem c6_counterexample :
    (produceRangesC true [1] [[1, 5]]).2 ≠ some StreamErr.cancelled ∧
    (produceRangesC true [1] [[1, 5]]).1 = [⟨[1], [1, 5]⟩, ⟨[1, 5], []⟩] := by
  decide

/-- C6 (amended): cancellation is observed at the workers' range-channel
pop and at the drainer's page-channel pop — a fired token makes both
abort with a cancellation error before consuming anything — but not by
the splitter, whose output is independent of the token (its pushes are
plain sends), nor at the workers' page-channel pushes. -/
theorem c6_amended_cancellation :
    (∀ (c : Bool) (pfx : Key) (splits : List Key),
      produceRangesC c pfx splits = (produceRangesFrom pfx splits, none)) ∧
    (∀ (ktl : Key → List Item → List KV × Nat) (choose : Option (Item → Bool))
        (entries : List Item) (ranges : List KeyRange) (s0 : Nat),
      produceKVsC true ktl choose entries ranges s0
        = Except.error StreamErr.cancelled) ∧
    (∀ pages : List (List KV),
      streamKVsC true pages = (some StreamErr.cancelled, [])) :=
  ⟨fun _ _ _ => rfl, fun _ _ _ _ _ => rfl, fun _ => rfl⟩

theorem foldl_tryRecord_some (e0 : StreamErr) :
    ∀ l : List StreamErr, l.foldl tryRecord (some e0) = some e0 := by
  intro l
  induction l with
  | nil => rfl
  | cons e tl ih => simpa [tryRecord] using ih

/-- C7: the error cell keeps exactly the first worker error — recording
into an occupied cell leaves it unchanged (the non-blocking send's
`default` branch drops the error) — and the run's entry point returns
exactly one error value: the recorded first error whenever the cell is
non-empty, the drainer's result only otherwise. -/
theorem c7_first_error_wins :
    (∀ errs : List StreamErr, recordAll errs = errs.head?) ∧
    (∀ e0 e : StreamErr, tryRecord (some e0) e = some e0) ∧
    (∀ (errs : List StreamErr) (d : Option StreamErr),
      errs ≠ [] → orchestrateErr errs d = errs.head?) ∧
    (∀ d : Option StreamErr, orchestrateErr [] d = d) := by
  have hrec : ∀ errs : List StreamErr, recordAll errs = errs.head? := by
    intro errs
    cases errs with
    | nil => rfl
    | cons e tl =>
      show (tl.foldl tryRecord (tryRecord none e)) = some e
      simpa [tryRecord] using foldl_tryRecord_some e tl
  refine ⟨hrec, fun e0 e => rfl, ?_, fun d => rfl⟩
  intro errs d hne
  cases errs with
  | nil => exact absurd rfl hne
  | cons e tl =>
    show orchestrateErr (e :: tl) d = some e
    unfold orchestrateErr
    rw [hrec (e :: tl)]
    rfl

/-- C7 (witness): with two worker failures arriving in order, the run
reports the first and drops the second; the drainer's error is shadowed. -/
theorem c7_first_error_wins_witness :
    orchestrateErr [StreamErr.sinkFailure, StreamErr.cancelled]
        (some StreamErr.expansionFailure) = some StreamErr.sinkFailure ∧
    tryRecord (some StreamErr.sinkFailure) StreamErr.cancelled
      = some StreamErr.sinkFailure := by
  refine ⟨?_, c7_first_error_wins.2.1 StreamErr.sinkFailure StreamErr.cancelled⟩
  have h := c7_first_error_wins.2.2.1 [StreamErr.sinkFailure, StreamErr.cancelled]
    (some StreamErr.expansionFailure) (by simp)
  rw [h]
  rfl

/-- C8: a run whose cancellation token fired before any range was
processed returns a cancellation-kind error from the entry point, and the
sink receives zero batches. -/
theorem c8_cancelled_run (ktl : Key → List Item → List KV × Nat)
    (choose : Option (Item → Bool)) (pfx : Key) (splits : List Key)
    (snapshot : List Item) :
    orchestrate true ktl choose pfx splits snapshot
      = (some StreamErr.cancelled, []) := rfl

/-- C9: construction is a pure, synchronous check of the store's
configuration — no pipeline task exists yet.  `NewStream` fails (panic,
modelled as an error) exactly on a managed-transactions store, and
`NewStreamAt` fails exactly on a non-managed store; in the failing cases
the error is returned immediately and nothing is retried, in the
succeeding cases the stream value is returned with the requested read
timestamp. -/
theorem c9_construction_misuse (db : DB) :
    (db.opt.managedTxns = true →
      NewStream db = Except.error "This API can not be called in managed mode." ∧
      ∀ ts : Nat, NewStreamAt db ts = Except.ok ⟨[], ts, db⟩) ∧
    (db.opt.managedTxns = false →
      NewStream db = Except.ok ⟨[], 0, db⟩ ∧
      ∀ ts : Nat, NewStreamAt db ts
        = Except.error "This API can only be called in managed mode.") := by
  constructor
  · intro h
    constructor
    · simp [NewStream, h]
    · intro ts
      simp [NewStreamAt, h]
  · intro h
    constructor
    · simp [NewStream, h]
    · intro ts
      simp [NewStreamAt, h]

/-- C9 (witness): the construction checks at the two concrete
configurations. -/
theorem c9_construction_misuse_witness :
    NewStream ⟨⟨true, 1⟩⟩
      = Except.error "This API can not be called in managed mode." ∧
    NewStreamAt ⟨⟨false, 1⟩⟩ 7
      = Except.error "This API can only be called in managed mode." :=
  ⟨((c9_construction_misuse ⟨⟨true, 1⟩⟩).1 rfl).1,
   ((c9_construction_misuse ⟨⟨false, 1⟩⟩).2 rfl).2 7⟩

/-- C10: every page a worker pushes is non-empty (nil or empty expansion
results are skipped before they reach a page, and the trailing flush is
guarded by non-emptiness), so under any coalescing schedule — any
partition of the run's page stream into non-empty groups, each group
concatenated into one sink batch — the sink never receives an empty
batch. -/
theorem c10_nonempty_batches (ktl : Key → List Item → List KV × Nat)
    (choose : Option (Item → Bool)) (entries : List Item)
    (ranges : List KeyRange) (s0 : Nat) (groups : List (List (List KV)))
    (hg : groups.flatten
      = (runRanges ktl choose entries ranges s0).pagesPerRange.flatten)
    (hne : ∀ g ∈ groups, g ≠ []) :
    ∀ g ∈ groups, g.flatten ≠ [] := by
  intro g hgmem
  cases hG : g with
  | nil => exact absurd hG (hne g hgmem)
  | cons p ps =>
    intro hflat
    have hpnil : p = [] := (List.flatten_eq_nil_iff.mp hflat) p (by simp)
    have hpmem : p ∈ groups.flatten :=
      List.mem_flatten.mpr ⟨g, hgmem, by simp [hG]⟩
    rw [hg] at hpmem
    exact runRanges_pages_nonempty ktl choose entries ranges s0 p hpmem hpnil

/-- C10 (witness): the batch non-emptiness applied to a concrete
single-key run with a one-group schedule. -/
theorem c10_nonempty_batches_witness :
    ([[mkKV ⟨[1], 1, [9], 0, 0, false, false⟩]] : List (List KV)).flatten ≠ [] := by
  have h := c10_nonempty_batches (toList 1) none
    [⟨[1], 1, [9], 0, 0, false, false⟩] (produceRanges [] []) 0
    [[[mkKV ⟨[1], 1, [9], 0, 0, false, false⟩]]] (by decide) (by decide)
  exact h [[mkKV ⟨[1], 1, [9], 0, 0, false, false⟩]] (by simp)

/-! ### C4 counterexample: the worker counter carries across ranges -/

/-- A value byte string of the given length (only its length matters to
the pipeline's size accounting). -/
def bigVal (n : Nat) : List Nat := List.replicate n 0

theorem bigVal_length (n : Nat) : (bigVal n).length = n :=
  List.length_replicate n 0

/-- Counterexample items: a 3 MB key alone in the first range, then a
1.5 MB key and a tiny key in the second range. -/
def cxA : Item := ⟨[1], 1, bigVal 3000001, 0, 0, false, false⟩

def cxB : Item := ⟨[2], 1, bigVal 1500001, 0, 0, false, false⟩

def cxC : Item := ⟨[3], 1, [0], 0, 0, false, false⟩

theorem kvSize_mkKV_cxA : kvSize (mkKV cxA) = 3000003 := by
  have hv : (mkKV cxA).value.length = 3000001 := by
    simp only [mkKV, cxA, bigVal_length]
  rw [kvSize.eq_def]
  rw [show (mkKV cxA).key.length = 1 from rfl, hv,
    show (mkKV cxA).userMeta.length = 1 from rfl]

theorem kvSize_mkKV_cxB : kvSize (mkKV cxB) = 1500003 := by
  have hv : (mkKV cxB).value.length = 1500001 := by
    simp only [mkKV, cxB, bigVal_length]
  rw [kvSize.eq_def]
  rw [show (mkKV cxB).key.length = 1 from rfl, hv,
    show (mkKV cxB).userMeta.length = 1 from rfl]

theorem kvSize_mkKV_cxC : kvSize (mkKV cxC) = 3 := by
  rw [kvSize.eq_def]
  rw [show (mkKV cxC).key.length = 1 from rfl,
    show (mkKV cxC).value.length = 1 from rfl,
    show (mkKV cxC).userMeta.length = 1 from rfl]

theorem listSize_cxA : listSize [mkKV cxA] = 3000003 := by
  rw [listSize.eq_def, List.map_cons, List.map_nil, List.sum_cons, List.sum_nil,
    kvSize_mkKV_cxA]
  rfl

theorem listSize_cxB : listSize [mkKV cxB] = 1500003 := by
  rw [listSize.eq_def, List.map_cons, List.map_nil, List.sum_cons, List.sum_nil,
    kvSize_mkKV_cxB]
  rfl

theorem listSize_cxC : listSize [mkKV cxC] = 3 := by
  rw [listSize.eq_def, List.map_cons, List.map_nil, List.sum_cons, List.sum_nil,
    kvSize_mkKV_cxC]
  rfl

theorem toList_cxA : toList 1 [1] [cxA, cxB, cxC] = ([mkKV cxA], 0) := by
  rw [toList.eq_def]
  simp [show cxA.deletedOrExpired = false from rfl, show cxA.key = [1] from rfl]

theorem toList_cxB : toList 1 [2] [cxB, cxC] = ([mkKV cxB], 0) := by
  rw [toList.eq_def]
  simp [show cxB.deletedOrExpired = false from rfl, show cxB.key = [2] from rfl]

theorem toList_cxC : toList 1 [3] [cxC] = ([mkKV cxC], 0) := by
  rw [toList.eq_def]
  simp [show cxC.deletedOrExpired = false from rfl, show cxC.key = [3] from rfl]

theorem iterateR_cx_range1 :
    iterateR (toList 1) none [cxA, cxB, cxC] ⟨[], [2]⟩ 0
      = ⟨[], [mkKV cxA], 3000003, [[1]]⟩ := by
  rw [iterateR.eq_def]
  rw [show seekTo [] [cxA, cxB, cxC] = [cxA, cxB, cxC] from by
    simp [seekTo, bcmp, show cxA.key = [1] from rfl]]
  rw [show loopMeasure [] [cxA, cxB, cxC] = 7 from by
    simp [loopMeasure, show cxA.key = [1] from rfl]]
  simp [iterLoopF, toList_cxA, listSize_cxA, chooseRejects, atRangeEnd, bcmp,
    pageSize, show cxA.key = [1] from rfl, show cxB.key = [2] from rfl]

theorem iterateR_cx_range2 :
    iterateR (toList 1) none [cxA, cxB, cxC] ⟨[2], []⟩ 3000003
      = ⟨[[mkKV cxB]], [mkKV cxC], 3, [[2], [3]]⟩ := by
  rw [iterateR.eq_def]
  rw [show seekTo [2] [cxA, cxB, cxC] = [cxB, cxC] from by
    simp [seekTo, bcmp, show cxA.key = [1] from rfl, show cxB.key = [2] from rfl]]
  rw [show loopMeasure [] [cxB, cxC] = 5 from by
    simp [loopMeasure, show cxB.key = [2] from rfl]]
  simp [iterLoopF, toList_cxB, toList_cxC, listSize_cxB, listSize_cxC,
    chooseRejects, atRangeEnd, bcmp, pageSize,
    show cxB.key = [2] from rfl, show cxC.key = [3] from rfl]

/-- C4 (counterexample): a run over two ranges where the first range's
trailing flush leaves the worker's `size` counter at 3000003.  In the
second range the very first record (1500003 bytes) then trips the
4 MiB check and is pushed as a page of its own — a page that is neither
at its range's exhaustion (another page follows in the same range) nor
holds 4 MiB of records, contradicting "a Page is pushed exactly when the
cumulative serialized size of the Records accumulated in that Page
reaches the 4 MiB threshold, or when the Page's range is exhausted". -/
theorem c4_counterexample :
    (runRanges (toList 1) none [cxA, cxB, cxC] (produceRanges [] [[2]]) 0).pagesPerRange
      = [[[mkKV cxA]], [[mkKV cxB], [mkKV cxC]]] ∧
    listSize [mkKV cxB] < pageSize := by
  constructor
  · simp [produceRanges, produceRangesFrom, runRanges,
      iterateR_cx_range1, iterateR_cx_range2, rangePages]
  · rw [listSize_cxB]
    decide

/-- C4 (witness): the amended paging discipline at a small concrete
run — pages confined to their ranges, non-empty, and size-conforming. -/
theorem c4_amended_paging_witness :
    keysSorted [⟨[1], 1, [5], 0, 0, false, false⟩] ∧
    (∀ p ∈ (runRanges (toList 1) none [⟨[1], 1, [5], 0, 0, false, false⟩]
        (produceRanges [] []) 0).pagesPerRange.flatten, p ≠ []) ∧
    rangesSizeOk (toList 1) none [⟨[1], 1, [5], 0, 0, false, false⟩]
      (produceRanges [] []) 0 := by
  have h := c4_amended_paging 1 none [⟨[1], 1, [5], 0, 0, false, false⟩]
    (produceRanges [] []) 0 (by decide)
  exact ⟨by decide, h.2.1, h.2.2⟩

end BadgerStream
